import Mathlib

/-!
Shallow embedding of the Profiler repository's core logic
(`src/memory_analyzer/core/allocation_parser.py`,
`src/memory_analyzer/core/stack_parser.py`,
`src/memory_analyzer/ui/FlameGraphWidget.py`,
`src/memory_analyzer/ui/StackTreeWidget.py`,
`src/memory_analyzer/ui/MemoryAnalyzerWindow.py`), together with
theorems settling the specification claims about it.

Modelling conventions:
* Python text files are modelled as the list of their lines (`List String`);
  each line is stripped exactly where the source strips it.
* Python `dict` is modelled as an insertion-ordered association list with
  overwriting insertion (`dictInsert`), matching CPython semantics.
* Python exceptions (`ValueError`, `KeyError`, `ZeroDivisionError`) are
  modelled with `Except String`.
* Python `int` is `Int`; `//` is `Int.fdiv` (floor division, as in Python).
* Python `set` is `Finset String`.
* Python's run-randomized built-in `hash` for strings is an arbitrary
  function parameter `pyhash : String → Nat`.
-/

namespace Profiler

/-- Is an `Except` value an error?  (Used to state "the operation raises".) -/
def isErrorB : Except ε α → Bool
  | .error _ => true
  | .ok _ => false

/-- Python `dict` assignment `d[k] = v`: overwrite in place if the key is
present, otherwise append (CPython dicts preserve insertion order). -/
def dictInsert (k : String) (v : α) : List (String × α) → List (String × α)
  | [] => [(k, v)]
  | (k', v') :: rest => if k' = k then (k, v) :: rest else (k', v') :: dictInsert k v rest

/-- Python `dict` lookup `d.get(k)` returning `None` when absent. -/
def dictGet? (k : String) : List (String × α) → Option α
  | [] => none
  | (k', v') :: rest => if k' = k then some v' else dictGet? k rest

/-- Python `str.strip()`: drop whitespace from both ends.  (Implemented over
the character list — Lean's built-in `String.trim` does not reduce in the
kernel; Python also strips Unicode whitespace, but every input in this
development is ASCII.) -/
def pyStrip (s : String) : String :=
  String.mk (((s.data.dropWhile Char.isWhitespace).reverse.dropWhile Char.isWhitespace).reverse)

/-- Python `s.lower()` (ASCII case mapping suffices for the inputs here). -/
def pyLower (s : String) : String :=
  String.mk (s.data.map Char.toLower)

/-- Split a character list at the first colon, if any: Python
`s.split(':', 1)` yields the two parts on `some`, and a 1-element list
(unpacking error) on `none`. -/
def splitFirstColon : List Char → Option (List Char × List Char)
  | [] => none
  | c :: cs =>
    if c = ':' then some ([], cs)
    else (splitFirstColon cs).map (fun p => (c :: p.1, p.2))

/-- Python `s.split(':')[1]` for a string known to contain a colon: the
segment between the first colon and the next colon (or the end). -/
def pySplitColonSecond (cs : List Char) : List Char :=
  match splitFirstColon cs with
  | none => []
  | some (_, rest) => rest.takeWhile (fun c => c != ':')

/-- Python `int(s)` on a string: strip whitespace, optional sign, then one or
more decimal digits; anything else raises `ValueError`.  (CPython also allows
underscores between digits; no input in this development uses them.)
`int(0)` on the integer default is handled separately at the call site. -/
def pyInt (s : String) : Except String Int :=
  let t := pyStrip s
  let signDigits : Int × List Char :=
    match t.toList with
    | '+' :: rest => (1, rest)
    | '-' :: rest => (-1, rest)
    | cs => (1, cs)
  let ds := signDigits.2
  if ds.isEmpty || !ds.all (·.isDigit) then
    .error "ValueError"
  else
    .ok (signDigits.1 * (ds.foldl (fun a c => a * 10 + (c.toNat - 48)) 0 : Nat))

/-! ## `core/allocation_parser.py` -/

/-- The `AllocationRecord` dataclass from `allocation_parser.py`. -/
structure AllocationRecord where
  size : Int
  hash_id : String
  address : String
  object_type : String
  frame : Option Int := none
deriving DecidableEq

/-- Model of `AllocationParser._create_record`: build a record from the raw key/value
block.  A missing `size` defaults to `0` (the Python default is the integer
`0`, so `int(...)` succeeds); a missing `frame` is `None`; a present but
non-numeric `size`/`frame` raises `ValueError`. -/
def createRecord (data : List (String × String)) : Except String AllocationRecord := do
  let size ← match dictGet? "size" data with
    | none => pure 0
    | some s => pyInt s
  let frame ← match dictGet? "frame" data with
    | none => pure none
    | some s => (pyInt s).map some
  pure { size := size,
         hash_id := (dictGet? "hash" data).getD "",
         address := (dictGet? "addr" data).getD "",
         object_type := (dictGet? "object" data).getD "",
         frame := frame }

/-- Python `key, value = line.split(':', 1)`: split at the first colon and
strip both sides; a line with no colon raises `ValueError` (unpacking a
1-element list into 2 names). -/
def splitKV (line : String) : Except String (String × String) :=
  match splitFirstColon line.data with
  | none => .error "ValueError"
  | some (k, v) => .ok (pyStrip (String.mk k), pyStrip (String.mk v))

/-- The line loop of `AllocationParser.parse_file`: blank lines flush the
pending key/value block into a record; non-blank lines must be `key: value`. -/
def allocLoop : List String → List (String × String) → List AllocationRecord →
    Except String (List AllocationRecord)
  | [], current, records =>
    if current.isEmpty then .ok records
    else do
      let r ← createRecord current
      .ok (records ++ [r])
  | line :: rest, current, records =>
    let l := pyStrip line
    if l.data.isEmpty then
      if current.isEmpty then allocLoop rest current records
      else do
        let r ← createRecord current
        allocLoop rest [] (records ++ [r])
    else do
      let kv ← splitKV l
      allocLoop rest (dictInsert kv.1 kv.2 current) records

/-- Model of `AllocationParser.parse_file` on the list of lines of the file
(fresh parser: `self.records` starts empty). -/
def parseAllocFile (lines : List String) : Except String (List AllocationRecord) :=
  allocLoop lines [] []

/-- Model of `AllocationParser.get_size_statistics`, the returned Python dict modelled
as an insertion-ordered association list.  `unique_stacks` is
`len(self._hash_data)`: the number of distinct `hash_id` values among all
added records.  `min`/`max`/`avg` keys are added only when records exist;
`avg_size` is Python floor division `//`. -/
def getSizeStatistics (records : List AllocationRecord) : List (String × Int) :=
  let total := (records.map (·.size)).sum
  let base := [("total_size", total),
               ("total_count", (records.length : Int)),
               ("unique_stacks", ((records.map (·.hash_id)).toFinset.card : Int))]
  match records with
  | [] => base
  | r :: rs =>
    base ++ [("min_size", rs.foldl (fun a x => min a x.size) r.size),
             ("max_size", rs.foldl (fun a x => max a x.size) r.size),
             ("avg_size", Int.fdiv total (records.length : Int))]

/-! ## `core/stack_parser.py` -/

/-- The `StackFrame` dataclass from `stack_parser.py`. -/
structure StackFrame where
  address : String
  module : String
  function : String
  source_info : Option String := none
deriving DecidableEq

/-- A complete stack: `StackTrace` from `stack_parser.py`. -/
structure StackTrace where
  hash_id : String
  frames : List StackFrame
deriving DecidableEq

/-- Python regex `[0-9a-fA-F]`. -/
def hexDigitB (c : Char) : Bool :=
  c.isDigit || ('a' ≤ c && c ≤ 'f') || ('A' ≤ c && c ≤ 'F')

/-- Model of `re.match` with the pattern
`(0x[0-9a-fA-F]+)\s+\(([^)]+)\)(?:\s+\[([^]]+)\])?\s*(.+)?` from
`StackFrame.parse`.  All character classes here are disjoint from what
follows them, so the regex is deterministic (no backtracking changes the
result); the optional bracketed group matches only when whitespace, `[`,
at least one non-`]` character and `]` are all present, exactly as the
regex engine resolves it.  Returns `(address, module, source?, function)`
on a match. -/
def frameMatch (cs : List Char) : Option (String × String × Option String × String) :=
  match cs with
  | '0' :: 'x' :: rest =>
    let hex := rest.takeWhile hexDigitB
    let r1 := rest.dropWhile hexDigitB
    if hex.isEmpty then none else
    let ws1 := r1.takeWhile Char.isWhitespace
    let r2 := r1.dropWhile Char.isWhitespace
    if ws1.isEmpty then none else
    match r2 with
    | '(' :: r3 =>
      let md := r3.takeWhile (fun c => c != ')')
      let r4 := r3.dropWhile (fun c => c != ')')
      if md.isEmpty then none else
      match r4 with
      | ')' :: r5 =>
        let ws2 := r5.takeWhile Char.isWhitespace
        let r6 := r5.dropWhile Char.isWhitespace
        let srcRest : Option String × List Char :=
          if ws2.isEmpty then (none, r5) else
          match r6 with
          | '[' :: r7 =>
            let sc := r7.takeWhile (fun c => c != ']')
            let r8 := r7.dropWhile (fun c => c != ']')
            if sc.isEmpty then (none, r5) else
            match r8 with
            | ']' :: r9 => (some (String.mk sc), r9)
            | _ => (none, r5)
          | _ => (none, r5)
        let r10 := srcRest.2.dropWhile Char.isWhitespace
        let fn := if r10.isEmpty then "" else String.mk r10
        some (String.mk ('0' :: 'x' :: hex), String.mk md, srcRest.1, fn)
      | _ => none
    | _ => none
  | _ => none

/-- Model of `StackFrame.parse`: try the full pattern, else fall back to treating the
whole stripped line as a bare function name. -/
def StackFrame.parse (line : String) : StackFrame :=
  match frameMatch (pyStrip line).data with
  | some (addr, md, src, fn) => ⟨addr, md, fn, src⟩
  | none => ⟨"", "", pyStrip line, none⟩

/-- The state of `StackParser.parse_file`'s line loop:
`(self.traces, current_hash, current_frames)`. -/
abbrev StackState := List (String × StackTrace) × Option String × List StackFrame

/-- One iteration of the `for line in f` loop of `StackParser.parse_file`:
a `hash:` line first stores the pending trace if both `current_hash` and
`current_frames` are truthy (`None` and `""` are falsy), resetting
`current_frames` **only in that case**, then starts a new block with
`line.split(':')[1].strip()` as the identifier; any other non-blank line is
parsed as a frame and appended; blank lines are skipped. -/
def stackStep (st : StackState) (line : String) : StackState :=
  let l := pyStrip line
  if "hash:".data.isPrefixOf l.data then
    let flushed : List (String × StackTrace) × List StackFrame :=
      match st.2.1 with
      | some h =>
        if h != "" && !st.2.2.isEmpty then (dictInsert h ⟨h, st.2.2⟩ st.1, [])
        else (st.1, st.2.2)
      | none => (st.1, st.2.2)
    (flushed.1, some (pyStrip (String.mk (pySplitColonSecond l.data))), flushed.2)
  else if l.data.isEmpty then st
  else (st.1, st.2.1, st.2.2 ++ [StackFrame.parse l])

/-- The flush after the loop of `StackParser.parse_file`: store the trailing
trace if both `current_hash` and `current_frames` are truthy. -/
def stackFinish (st : StackState) : List (String × StackTrace) :=
  match st.2.1 with
  | some h =>
    if h != "" && !st.2.2.isEmpty then dictInsert h ⟨h, st.2.2⟩ st.1
    else st.1
  | none => st.1

/-- Model of `StackParser.parse_file` on the list of lines of the file
(fresh parser: `self.traces` starts empty). -/
def parseStackFile (lines : List String) : List (String × StackTrace) :=
  stackFinish (lines.foldl stackStep ([], none, []))

/-! ## `ui/FlameGraphWidget.py`: node type and tree builder -/

/-- The `FlameGraphNode` type, with the fields the claims are about: `name`, `value`,
`hash_ids`, the mutable layout fields `depth`, `x`, `y`, `width`, and the
`children` list.  `__init__` sets `depth = 0` and `x = y = width = 0.0`.
(`height` is a constant, `highlighted`/`animation` are view state, the
`parent` back-reference is represented structurally, and the color is
modelled separately by `PColor`/`Brush` below.) -/
inductive FNode where
  | mk (name : String) (value : Int) (hashIds : Finset String)
      (depth : Int) (x y width : Rat) (children : List FNode)

def FNode.name : FNode → String
  | .mk n _ _ _ _ _ _ _ => n

def FNode.value : FNode → Int
  | .mk _ v _ _ _ _ _ _ => v

def FNode.hashIds : FNode → Finset String
  | .mk _ _ h _ _ _ _ _ => h

def FNode.depth : FNode → Int
  | .mk _ _ _ d _ _ _ _ => d

def FNode.x : FNode → Rat
  | .mk _ _ _ _ x _ _ _ => x

def FNode.y : FNode → Rat
  | .mk _ _ _ _ _ y _ _ => y

def FNode.width : FNode → Rat
  | .mk _ _ _ _ _ _ w _ => w

def FNode.children : FNode → List FNode
  | .mk _ _ _ _ _ _ _ cs => cs

/-- The `child is None` branch of `_build_node_tree`'s frame walk: a fresh
`FlameGraphNode(frame.function, size)` with `hash_ids = {hash_id}` is created
for the frame and, continuing the walk, for every remaining frame below it. -/
def newChain (hid : String) (size : Int) : StackFrame → List StackFrame → FNode
  | f, [] => .mk f.function size {hid} 0 0 0 0 []
  | f, g :: fs => .mk f.function size {hid} 0 0 0 0 [newChain hid size g fs]

/-- The linear scan `for existing in current.children: if existing.name ==
frame.function: ...` of `_build_node_tree`: find the **first** child with the
given name, returning the siblings before it, the child, and the siblings
after it (`none` if no child matches). -/
def findChild (name : String) : List FNode → Option (List FNode × FNode × List FNode)
  | [] => none
  | c :: cs =>
    if c.name = name then some ([], c, cs)
    else
      match findChild name cs with
      | none => none
      | some (pre, x, post) => some (c :: pre, x, post)

/-- The frame walk of `_build_node_tree` for one stack: for each frame, scan
the current node's children for one named like the frame's function; if found
add the stack's size and hash id to it (in place — its position among the
siblings is unchanged) and descend into it, otherwise append a fresh chain
for the remaining frames (`current.children.append(child)`). -/
def insertFrames (hid : String) (size : Int) : List StackFrame → List FNode → List FNode
  | [], cs => cs
  | f :: fs, cs =>
    match findChild f.function cs with
    | none => cs ++ [newChain hid size f fs]
    | some (pre, .mk n v h d x y w cc, post) =>
      pre ++ .mk n (v + size) (insert hid h) d x y w (insertFrames hid size fs cc) :: post

/-- The per-stack loop of `_build_node_tree`: `trace = self._traces[hash_id]`
raises `KeyError` when the hash id has no trace; otherwise the root's value
and hash-id set accumulate and the stack's frames (reversed when
`reverse_stack`) are walked into the children. -/
def buildLoop (reverse : Bool) (traces : List (String × StackTrace)) :
    List (String × Int) → FNode → Except String FNode
  | [], root => .ok root
  | (h, size) :: rest, .mk n v hids d x y w cs =>
    match dictGet? h traces with
    | none => .error ("KeyError: " ++ h)
    | some tr =>
      let frames := if reverse then tr.frames.reverse else tr.frames
      buildLoop reverse traces rest
        (.mk n (v + size) (insert h hids) d x y w (insertFrames h size frames cs))

/-- Model of `FlameGraphWidget._build_node_tree`: aggregate each stack's size from its
allocation records, process the stacks in descending size order (Python's
`sorted(..., key=lambda x: x[1], reverse=True)` is a stable descending sort,
as is `insertionSort` with this relation), and fold them into a fresh root
`FlameGraphNode("root", 0)` with `hash_ids = set()`. -/
def buildNodeTree (reverse : Bool) (traces : List (String × StackTrace))
    (allocations : List (String × List AllocationRecord)) : Except String FNode :=
  let stackSizes := allocations.map (fun p => (p.1, (p.2.map (·.size)).sum))
  let sortedStacks := stackSizes.insertionSort (fun a b => b.2 ≤ a.2)
  buildLoop reverse traces sortedStacks (.mk "root" 0 ∅ 0 0 0 0 [])

mutual

/-- Model of `FlameGraphWidget._get_max_depth`: a leaf reports its **stored** `depth`
attribute; an inner node reports the maximum over its children (Python's
`max` over the generator is a left fold of binary `max`). -/
def getMaxDepth : FNode → Int
  | .mk _ _ _ d _ _ _ [] => d
  | .mk _ _ _ _ _ _ _ (c :: cs) => maxDepthList (getMaxDepth c) cs

def maxDepthList : Int → List FNode → Int
  | acc, [] => acc
  | acc, c :: cs => maxDepthList (max acc (getMaxDepth c)) cs

end

/-! ## `FlameGraphView._calculate_layout` -/

theorem sizeOf_perm {α} [SizeOf α] {l1 l2 : List α} (h : l1.Perm l2) :
    sizeOf l1 = sizeOf l2 := by
  induction h with
  | nil => rfl
  | cons a _ ih => simp [ih]
  | swap a b l => simp; omega
  | trans _ _ ih1 ih2 => omega

/-- Model of `sorted(node.children, key=lambda n: -n.value)`: stable ascending sort by
`-value`, i.e. stable descending by `value`. -/
def sortChildrenDesc (cs : List FNode) : List FNode :=
  cs.insertionSort (fun a b => b.value ≤ a.value)

theorem sizeOf_sortChildrenDesc (cs : List FNode) :
    sizeOf (sortChildrenDesc cs) = sizeOf cs :=
  sizeOf_perm (List.perm_insertionSort _ cs)

mutual

/-- The recursive `layout_node` of `_calculate_layout`.  A node's visual row
is `depth` when `reverse_stack` else `max_depth - depth`; `y` is
`row * (rect_height + v_spacing)`; a root (no parent) gets width
`total_width`, a child gets `parent_width * (value / parent.value)` — the
division raises `ZeroDivisionError` when the parent's value is `0` (Python
int/int division; widths are modelled as exact rationals, which does not
affect the zero-divisor or row behaviour the claims are about).  Children are
laid out left to right in descending value order, each starting where the
previous one's width ended. -/
def layoutNode (reverse : Bool) (maxDepth : Int) (rectH vSpace totalWidth : Rat)
    (node : FNode) (x : Rat) (depth : Int) (parentW : Rat) (parentV : Option Int) :
    Except String FNode :=
  match node with
  | .mk n v hids _ _ _ _ cs =>
    let d : Int := if reverse then depth else maxDepth - depth
    let y : Rat := (d : Rat) * (rectH + vSpace)
    match parentV with
    | none =>
      match layoutChildren reverse maxDepth rectH vSpace totalWidth
          (sortChildrenDesc cs) x (depth + 1) totalWidth v with
      | .error e => .error e
      | .ok cs' => .ok (.mk n v hids d x y totalWidth cs')
    | some pv =>
      if pv = 0 then .error "ZeroDivisionError"
      else
        let w : Rat := parentW * ((v : Rat) / (pv : Rat))
        match layoutChildren reverse maxDepth rectH vSpace totalWidth
            (sortChildrenDesc cs) x (depth + 1) w v with
        | .error e => .error e
        | .ok cs' => .ok (.mk n v hids d x y w cs')
termination_by sizeOf node
decreasing_by
  all_goals simp_all [sizeOf_sortChildrenDesc]

def layoutChildren (reverse : Bool) (maxDepth : Int) (rectH vSpace totalWidth : Rat)
    (l : List FNode) (curX : Rat) (depth : Int) (parentW : Rat) (parentV : Int) :
    Except String (List FNode) :=
  match l with
  | [] => .ok []
  | c :: rest =>
    match layoutNode reverse maxDepth rectH vSpace totalWidth c curX depth parentW (some parentV) with
    | .error e => .error e
    | .ok c' =>
      match layoutChildren reverse maxDepth rectH vSpace totalWidth rest
          (curX + c'.width) depth parentW parentV with
      | .error e => .error e
      | .ok rest' => .ok (c' :: rest')
termination_by sizeOf l
decreasing_by
  all_goals simp_all
  all_goals omega

end

/-- The entry of `_calculate_layout`: `total_width = max(800, viewport - 20)`,
`max_depth = self._get_max_depth(root)` (computed from the **stored** depth
attributes, before any is assigned), then `layout_node(root, 0, 0,
total_width)`.  The subsequent bounds/offset passes adjust only `y` and the
scene rectangle, never `depth` or `width`, and are not needed by the claims. -/
def calculateLayout (reverse : Bool) (rectH vSpace viewportWidth : Rat) (root : FNode) :
    Except String FNode :=
  let totalWidth := max 800 (viewportWidth - 20)
  layoutNode reverse (getMaxDepth root) rectH vSpace totalWidth root 0 0 totalWidth none

/-! ## `ui/StackTreeWidget.py`: the call-tree builder -/

/-- The `CallTreeNode` type from `StackTreeWidget.py`: children are a dict keyed by
`"module::function"`. -/
inductive CTNode where
  | mk (frame : Option StackFrame) (children : List (String × CTNode))
      (total_size : Int) (allocation_count : Nat) (stack_hashes : Finset String)

def CTNode.children : CTNode → List (String × CTNode)
  | .mk _ cs _ _ _ => cs

def CTNode.total_size : CTNode → Int
  | .mk _ _ t _ _ => t

def CTNode.childrenKeys : CTNode → List String
  | .mk _ cs _ _ _ => cs.map (·.1)

/-- Model of `key in self.children` and `self.children[key]` on the child dict:
first (and, for a dict, only) entry with the key, split into the entries
before it, the node, and the entries after it. -/
def ctFind (key : String) : List (String × CTNode) → Option (List (String × CTNode) × CTNode × List (String × CTNode))
  | [] => none
  | (k, n) :: cs =>
    if k = key then some ([], n, cs)
    else
      match ctFind key cs with
      | none => none
      | some (pre, x, post) => some ((k, n) :: pre, x, post)

/-- Model of `CallTreeNode.add_stack`: accumulate size, count and hash id, then
descend into (or create and descend into) the child keyed by the first
frame's `module::function`. -/
def CTNode.addStack : CTNode → List StackFrame → String → Int → CTNode
  | .mk fr cs t c hs, [], hid, size => .mk fr cs (t + size) (c + 1) (insert hid hs)
  | .mk fr cs t c hs, f :: rest, hid, size =>
    let key := f.module ++ "::" ++ f.function
    let children :=
      match ctFind key cs with
      | none => cs ++ [(key, CTNode.addStack (.mk (some f) [] 0 0 ∅) rest hid size)]
      | some (pre, n, post) => pre ++ (key, CTNode.addStack n rest hid size) :: post
    .mk fr children (t + size) (c + 1) (insert hid hs)

/-- The tree-building part of `StackTreeWidget.update_data`: iterate the
traces, aggregate each one's allocation size, and add the stack **only when
`total_size > 0`** (the `# 只添加有分配的堆栈` branch). -/
def stackTreeRoot (traces : List (String × StackTrace))
    (allocations : List (String × List AllocationRecord)) : CTNode :=
  traces.foldl (fun root p =>
    let allocs := (dictGet? p.1 allocations).getD []
    let total := (allocs.map (·.size)).sum
    if 0 < total then root.addStack p.2.frames p.1 total else root)
    (.mk none [] 0 0 ∅)

/-! ## `MemoryAnalyzerWindow.update_views` data wiring -/

/-- Model of how `update_views` builds the allocations mapping handed to both widgets as
`{hash_id: alloc_parser.get_hash_allocations(hash_id) for hash_id in
traces.keys()}` — keyed by the **parsed trace** identifiers, with
`get_hash_allocations` returning `self._hash_data.get(hash_id, [])`. -/
def updateViewsAllocations (traces : List (String × StackTrace))
    (hashData : List (String × List AllocationRecord)) :
    List (String × List AllocationRecord) :=
  traces.map (fun p => (p.1, (dictGet? p.1 hashData).getD []))

/-! ## Colors and brushes (`_generate_color`, `_get_color`, search/clear) -/

/-- A Qt color as the expression that builds it: `QColor.fromHsv(h, s, v)`,
`QColor(r, g, b, a)`, or `color.lighter(factor)`.  Comparing expressions
syntactically is sound for the inequalities proved here because the decisive
difference is at the brush level (solid vs. gradient), not in color
arithmetic. -/
inductive PColor where
  | fromHsv (h s v : Nat)
  | rgba (r g b a : Nat)
  | lighter (c : PColor) (f : Nat)
deriving DecidableEq

/-- A Qt brush: `QBrush(QColor)` or the two-stop `QLinearGradient` used in
`_create_rect_item`. -/
inductive Brush where
  | solid (c : PColor)
  | linearGradient (stop0 stop1 : PColor)
deriving DecidableEq

/-- Python `sub in s` on strings: `sub` occurs contiguously in `s`. -/
def pyContains (sub s : String) : Bool :=
  s.data.tails.any (fun t => sub.data.isPrefixOf t)

/-- Model of `FlameGraphNode._generate_color`: `QColor.fromHsv(hash(name) % 360, 200,
230)`.  Python's built-in string hash is run-randomized, so it is a
parameter. -/
def generateColor (pyhash : String → Nat) (name : String) : PColor :=
  .fromHsv (pyhash name % 360) 200 230

/-- The brush `_create_rect_item` paints a rectangle with: a linear gradient
from `base_color.lighter(120)` (stop 0) to `base_color` (stop 1), where
`base_color` is the node's `_generate_color` result. -/
def createRectItemBrush (pyhash : String → Nat) (name : String) : Brush :=
  .linearGradient (.lighter (generateColor pyhash name) 120) (generateColor pyhash name)

/-- Model of `FlameGraphWidget._get_color`: palette override for names containing
`error`/`exception`, `warning`, `success`/`ok` (on the lowered name), else
HSV from the name hash; always lightened by `100 + hash(name) % 30`. -/
def getColor (pyhash : String → Nat) (name : String) : PColor :=
  let lower := pyLower name
  let base : PColor :=
    if pyContains "error" lower || pyContains "exception" lower then .rgba 224 108 117 255
    else if pyContains "warning" lower then .rgba 229 192 123 255
    else if pyContains "success" lower || pyContains "ok" lower then .rgba 152 195 121 255
    else .fromHsv (pyhash name % 360) 200 230
  .lighter base (100 + pyhash name % 30)

/-- Model of `_perform_search`: a matching rectangle (lowered search text contained in
the lowered stored name) gets `QBrush(QColor(255, 255, 0, 100))`; a
non-matching one gets `QBrush(self._get_color(name))`.  The previous brush is
ignored. -/
def performSearchBrush (pyhash : String → Nat) (text name : String) : Brush :=
  if pyContains (pyLower text) (pyLower name) then .solid (.rgba 255 255 0 100)
  else .solid (getColor pyhash name)

/-- Model of `_clear_search`: every rectangle gets `QBrush(self._get_color(name))`. -/
def clearSearchBrush (pyhash : String → Nat) (name : String) : Brush :=
  .solid (getColor pyhash name)

/-! ## Auxiliary decidable predicates over trees -/

/-- The effect that processing one `(hash_id, size)` stack entry has on the
root's children inside `_build_node_tree`'s loop (used to characterise
`buildLoop`): look up the trace and walk its frames into the sibling list;
an entry whose lookup fails never gets this far (the loop raises first). -/
def insertStack (reverse : Bool) (traces : List (String × StackTrace))
    (cs : List FNode) (p : String × Int) : List FNode :=
  match dictGet? p.1 traces with
  | none => cs
  | some tr => insertFrames p.1 p.2 (if reverse then tr.frames.reverse else tr.frames) cs

/-- Does a chain of node names descend from the given sibling list?
(`hasPathB [n1, n2, ...] cs`: the first child of `cs` named `n1` — the one
`_build_node_tree`'s linear scan would select — continues with the chain
`n2, ...` below it.) -/
def hasPathB : List String → List FNode → Bool
  | [], _ => true
  | n :: ns, cs =>
    match findChild n cs with
    | none => false
    | some (_, c, _) => hasPathB ns c.children

mutual

/-- Every stored `depth` attribute in the tree is `0` (as `__init__` leaves
them before any layout pass). -/
def allDepthZero : FNode → Bool
  | .mk _ _ _ d _ _ _ cs => d == 0 && allDepthZeroList cs

def allDepthZeroList : List FNode → Bool
  | [] => true
  | c :: cs => allDepthZero c && allDepthZeroList cs

end

mutual

/-- Modelled from the spec: "max depth = the maximum over all leaves of the
structural distance from the root" — the *structural* max leaf depth, for
comparison with the code's `_get_max_depth`. -/
def specMaxLeafDepth : FNode → Nat
  | .mk _ _ _ _ _ _ _ [] => 0
  | .mk _ _ _ _ _ _ _ (c :: cs) => specMaxLeafDepthList (1 + specMaxLeafDepth c) cs

def specMaxLeafDepthList : Nat → List FNode → Nat
  | acc, [] => acc
  | acc, c :: cs => specMaxLeafDepthList (max acc (1 + specMaxLeafDepth c)) cs

end

mutual

/-- Every node's visual row (`depth` field) in a laid-out tree equals
`structural_depth` when `reverse_stack` else `max_depth - structural_depth`,
where `sd` is the structural depth of the subtree root. -/
def rowsFrom (reverse : Bool) (maxDepth : Int) : FNode → Int → Bool
  | .mk _ _ _ d _ _ _ cs, sd =>
    (d == if reverse then sd else maxDepth - sd) && rowsFromList reverse maxDepth cs (sd + 1)

def rowsFromList (reverse : Bool) (maxDepth : Int) : List FNode → Int → Bool
  | [], _ => true
  | c :: cs, sd => rowsFrom reverse maxDepth c sd && rowsFromList reverse maxDepth cs sd

end

/-! ## Helper lemmas (shared) -/

theorem dictGet?_dictInsert (k k' : String) (v : α) (l : List (String × α)) :
    dictGet? k (dictInsert k' v l) = if k' = k then some v else dictGet? k l := by
  induction l with
  | nil => simp [dictInsert, dictGet?]
  | cons p rest ih =>
    obtain ⟨a, b⟩ := p
    by_cases h1 : a = k'
    · subst h1
      by_cases h2 : a = k <;> simp [dictInsert, dictGet?, h2]
    · simp only [dictInsert, if_neg h1, dictGet?]
      by_cases h2 : a = k
      · subst h2
        have hk : ¬ k' = a := fun e => h1 e.symm
        simp [hk]
      · simp [h2, ih]

theorem perm_toFinset {α} [DecidableEq α] {l1 l2 : List α} (h : l1.Perm l2) :
    l1.toFinset = l2.toFinset := by
  ext a
  simp [List.mem_toFinset, h.mem_iff]

theorem dictGet?_isSome_of_mem {k : String} {v : α} {l : List (String × α)}
    (h : (k, v) ∈ l) : (dictGet? k l).isSome = true := by
  induction l with
  | nil => simp at h
  | cons p rest ih =>
    obtain ⟨a, b⟩ := p
    rcases List.mem_cons.mp h with h' | h'
    · obtain ⟨rfl, rfl⟩ := Prod.mk.injEq .. ▸ h'
      simp [dictGet?]
    · by_cases hk : a = k <;> simp [dictGet?, hk, ih h']

/-! ## C10 -/

/-- C10: on an empty record list `get_size_statistics` returns exactly
`{total_size: 0, total_count: 0, unique_stacks: 0}`, omitting the
`min_size`/`max_size`/`avg_size` keys; in general the `avg_size` key (the
floor division of the total by the count) is present exactly when records
exist, so the division only happens for a positive count and the call never
raises. -/
theorem getSizeStatistics_empty_guard :
    getSizeStatistics [] = [("total_size", 0), ("total_count", 0), ("unique_stacks", 0)] ∧
    ∀ records : List AllocationRecord,
      dictGet? "avg_size" (getSizeStatistics records) =
        if records.isEmpty then none
        else some (Int.fdiv ((records.map (·.size)).sum) records.length) := by
  refine ⟨rfl, ?_⟩
  intro records
  cases records <;> simp [getSizeStatistics, dictGet?]

/-! ## C6 -/

/-- C6 counterexample: the allocation parser does **not** tolerate malformed
input.  A non-numeric `size` value (`int("abc")`) and a line with no colon
(`line.split(':', 1)` unpacking) both raise `ValueError`, aborting the whole
parse — the claim that such lines default to zero/empty and never escalate to
an error is false. -/
theorem allocParserMalformedRaises :
    isErrorB (parseAllocFile ["size: abc"]) = true ∧
    isErrorB (parseAllocFile ["garbage"]) = true := by
  exact ⟨rfl, rfl⟩

/-- C6 amended: a **missing** field defaults softly (`size` to `0`, string
fields to `""`, `frame` to `None`) and does not abort; but a malformed
non-blank line (no colon) or a non-numeric `size`/`frame` value raises
`ValueError`, aborting the parse of the whole file even when other records
are well-formed. -/
theorem allocParserDefaultsOnlyForMissingFields :
    (∀ data : List (String × String),
      dictGet? "size" data = none → dictGet? "frame" data = none →
      createRecord data = .ok ⟨0, (dictGet? "hash" data).getD "",
        (dictGet? "addr" data).getD "", (dictGet? "object" data).getD "", none⟩) ∧
    isErrorB (parseAllocFile ["size: 12", "", "size: abc"]) = true ∧
    isErrorB (parseAllocFile ["size: 12", "", "lineWithoutColon"]) = true := by
  refine ⟨?_, rfl, rfl⟩
  intro data hs hf
  simp [createRecord, hs, hf, pure, Except.pure, Except.bind, bind]

/-- Witness for `allocParserDefaultsOnlyForMissingFields`: a record block
carrying only a `hash` key parses to the defaulted record. -/
theorem allocParserDefaultsOnlyForMissingFields_witness :
    createRecord [("hash", "deadbeef")] = .ok ⟨0, "deadbeef", "", "", none⟩ :=
  allocParserDefaultsOnlyForMissingFields.1 [("hash", "deadbeef")] rfl rfl

/-! ## C9 -/

/-- C9 counterexample: clearing a search does **not** restore the brush a
rectangle had before the search.  At creation `_create_rect_item` paints a
two-stop linear-gradient brush built from `_generate_color`; `_clear_search`
paints a solid brush of `_get_color(name)` — a different brush (solid vs.
gradient) for every node, here shown for the node name `"f"` and the constant
hash function. -/
theorem clearSearchNotCreationBrush :
    clearSearchBrush (fun _ => 0) "f" ≠ createRectItemBrush (fun _ => 0) "f" := by
  simp [clearSearchBrush, createRectItemBrush]

/-- C9 amended: clearing a search sets every rectangle to
`QBrush(_get_color(name))` — exactly the brush a non-matching rectangle
already has during the search (so search→clear is stable for non-matches) —
but that is **not** the creation-time gradient brush from `_generate_color`:
the pre-search coloring is not reproduced. -/
theorem clearSearchRestoresSearchColorOnly (pyhash : String → Nat) (text name : String) :
    (pyContains (pyLower text) (pyLower name) = false →
      performSearchBrush pyhash text name = clearSearchBrush pyhash name) ∧
    clearSearchBrush pyhash name ≠ createRectItemBrush pyhash name := by
  constructor
  · intro h
    simp [performSearchBrush, clearSearchBrush, h]
  · simp [clearSearchBrush, createRectItemBrush]

/-- Witness for `clearSearchRestoresSearchColorOnly` at a concrete
non-matching search. -/
theorem clearSearchRestoresSearchColorOnly_witness :
    performSearchBrush (fun _ => 0) "zz" "f" = clearSearchBrush (fun _ => 0) "f" ∧
    clearSearchBrush (fun _ => 0) "f" ≠ createRectItemBrush (fun _ => 0) "f" :=
  ⟨(clearSearchRestoresSearchColorOnly (fun _ => 0) "zz" "f").1 (by decide),
   (clearSearchRestoresSearchColorOnly (fun _ => 0) "zz" "f").2⟩

/-! ## C2 (counterexample) -/

/-- C2 counterexample: `_build_node_tree` does **not** tolerate an allocation
hash id without a matching trace — `trace = self._traces[hash_id]` raises
`KeyError` for the orphaned id and the operation aborts instead of treating
the weight as zero. -/
theorem buildNodeTreeOrphanRaises :
    buildNodeTree false [] [("h", [⟨5, "h", "", "", none⟩])] = .error "KeyError: h" := rfl

/-! ## The tree-builder loop characterisation (shared) -/

theorem buildLoop_ok (reverse : Bool) (traces : List (String × StackTrace)) :
    ∀ (l : List (String × Int)) (n : String) (v : Int) (hids : Finset String)
      (d : Int) (x y w : Rat) (cs : List FNode),
      (∀ p ∈ l, (dictGet? p.1 traces).isSome = true) →
      buildLoop reverse traces l (.mk n v hids d x y w cs) =
        .ok (.mk n (v + (l.map (·.2)).sum) (hids ∪ (l.map (·.1)).toFinset) d x y w
          (l.foldl (insertStack reverse traces) cs)) := by
  intro l
  induction l with
  | nil =>
    intro n v hids d x y w cs _
    simp [buildLoop]
  | cons p rest ih =>
    intro n v hids d x y w cs hall
    obtain ⟨h, size⟩ := p
    have hh := hall (h, size) (List.mem_cons_self _ _)
    obtain ⟨tr, htr⟩ := Option.isSome_iff_exists.mp hh
    have hrest : ∀ p ∈ rest, (dictGet? p.1 traces).isSome = true :=
      fun p hp => hall p (List.mem_cons_of_mem _ hp)
    simp only [buildLoop, htr]
    rw [ih _ (v + size) (insert h hids) d x y w _ hrest]
    simp only [List.map_cons, List.sum_cons, List.toFinset_cons, List.foldl_cons]
    congr 2
    · omega
    · rw [Finset.insert_union, Finset.union_insert]
    · simp [insertStack, htr]

/-- Full characterisation of `_build_node_tree` when every allocation hash id
has a matching trace. -/
theorem buildNodeTree_ok (reverse : Bool) (traces : List (String × StackTrace))
    (allocations : List (String × List AllocationRecord))
    (hall : ∀ p ∈ allocations, (dictGet? p.1 traces).isSome = true) :
    buildNodeTree reverse traces allocations =
      .ok (.mk "root" ((allocations.map (fun p => (p.2.map (·.size)).sum)).sum)
        ((allocations.map (·.1)).toFinset) 0 0 0 0
        (((allocations.map (fun p => (p.1, (p.2.map (·.size)).sum))).insertionSort
            (fun a b => b.2 ≤ a.2)).foldl (insertStack reverse traces) [])) := by
  have hperm : ((allocations.map (fun p => (p.1, (p.2.map (·.size)).sum))).insertionSort
      (fun a b => b.2 ≤ a.2)).Perm (allocations.map (fun p => (p.1, (p.2.map (·.size)).sum))) :=
    List.perm_insertionSort _ _
  have hall' : ∀ p ∈ (allocations.map (fun p => (p.1, (p.2.map (·.size)).sum))).insertionSort
      (fun a b => b.2 ≤ a.2), (dictGet? p.1 traces).isSome = true := by
    intro p hp
    obtain ⟨q, hq, rfl⟩ := List.mem_map.mp (hperm.mem_iff.mp hp)
    exact hall q hq
  unfold buildNodeTree
  rw [buildLoop_ok reverse traces _ _ _ _ _ _ _ _ _ hall']
  congr 2
  · rw [(hperm.map (·.2)).sum_eq, List.map_map, zero_add]
    rfl
  · rw [perm_toFinset (hperm.map (·.1)), List.map_map, Finset.empty_union]
    rfl

/-! ## C1 -/

/-- C1: when every hash id in the allocations mapping has a matching trace,
`_build_node_tree` succeeds and the returned root's `value` equals the sum
over all hash ids of that hash id's aggregated allocation size (sum of its
record sizes), while the root's contributing `hash_ids` set equals the set of
all processed hash ids. -/
theorem flameGraphRootAggregation (reverse : Bool) (traces : List (String × StackTrace))
    (allocations : List (String × List AllocationRecord))
    (hall : ∀ p ∈ allocations, (dictGet? p.1 traces).isSome = true) :
    ∃ root, buildNodeTree reverse traces allocations = .ok root ∧
      root.value = (allocations.map (fun p => (p.2.map (·.size)).sum)).sum ∧
      root.hashIds = (allocations.map (·.1)).toFinset :=
  ⟨_, buildNodeTree_ok reverse traces allocations hall, rfl, rfl⟩

/-- Witness for `flameGraphRootAggregation` on a one-stack corpus. -/
theorem flameGraphRootAggregation_witness :
    ∃ root, buildNodeTree false [("a", ⟨"a", [⟨"", "", "f", none⟩]⟩)]
        [("a", [⟨7, "a", "", "", none⟩])] = .ok root ∧
      root.value = ([("a", [(⟨7, "a", "", "", none⟩ : AllocationRecord)])].map
        (fun p => (p.2.map (·.size)).sum)).sum ∧
      root.hashIds = ([("a", [(⟨7, "a", "", "", none⟩ : AllocationRecord)])].map (·.1)).toFinset :=
  flameGraphRootAggregation false [("a", ⟨"a", [⟨"", "", "f", none⟩]⟩)]
    [("a", [⟨7, "a", "", "", none⟩])] (by decide)

/-! ## C2 (amended theorem) -/

/-- C2 amended: `_build_node_tree` itself raises `KeyError` on an orphaned
hash id (`buildNodeTreeOrphanRaises`); the tolerance the spec describes
happens one level up: `update_views` keys the allocations mapping by the
parsed trace identifiers only, so an allocation record whose hash id matches
no trace never reaches the builder — the build completes without raising and
the orphaned records contribute zero (the root's value sums only the records
retrievable under trace identifiers). -/
theorem orphanRecordsFilteredContributeZero (reverse : Bool)
    (traces : List (String × StackTrace)) (hashData : List (String × List AllocationRecord)) :
    ∃ root, buildNodeTree reverse traces (updateViewsAllocations traces hashData) = .ok root ∧
      root.value = (traces.map (fun p =>
        (((dictGet? p.1 hashData).getD []).map (·.size)).sum)).sum ∧
      root.hashIds = (traces.map (·.1)).toFinset := by
  have hall : ∀ p ∈ updateViewsAllocations traces hashData,
      (dictGet? p.1 traces).isSome = true := by
    intro p hp
    obtain ⟨q, hq, rfl⟩ := List.mem_map.mp hp
    exact dictGet?_isSome_of_mem hq
  refine ⟨_, buildNodeTree_ok _ _ _ hall, ?_, ?_⟩
  · show ((updateViewsAllocations traces hashData).map (fun p => (p.2.map (·.size)).sum)).sum = _
    rw [updateViewsAllocations, List.map_map]
    rfl
  · show ((updateViewsAllocations traces hashData).map (·.1)).toFinset = _
    rw [updateViewsAllocations, List.map_map]
    rfl

/-! ## `findChild` lemmas (shared) -/

theorem findChild_cons (n : String) (a : FNode) (rest : List FNode) :
    findChild n (a :: rest) =
      if a.name = n then some ([], a, rest)
      else
        match findChild n rest with
        | none => none
        | some (pre, x, post) => some (a :: pre, x, post) := rfl

theorem findChild_eq (n : String) : ∀ (cs pre : List FNode) (c : FNode) (post : List FNode),
    findChild n cs = some (pre, c, post) →
    cs = pre ++ c :: post ∧ c.name = n ∧ ∀ x ∈ pre, x.name ≠ n := by
  intro cs
  induction cs with
  | nil => intro pre c post h; simp [findChild] at h
  | cons a rest ih =>
    intro pre c post h
    by_cases ha : a.name = n
    · rw [findChild, if_pos ha] at h
      obtain ⟨rfl, rfl, rfl⟩ : ([] : List FNode) = pre ∧ a = c ∧ rest = post := by
        simpa using h
      exact ⟨rfl, ha, by simp⟩
    · rw [findChild, if_neg ha] at h
      cases hf : findChild n rest with
      | none => rw [hf] at h; simp at h
      | some t =>
        obtain ⟨p2, c2, post2⟩ := t
        rw [hf] at h
        obtain ⟨rfl, rfl, rfl⟩ : a :: p2 = pre ∧ c2 = c ∧ post2 = post := by
          simpa using h
        obtain ⟨hcs, hn, hpre⟩ := ih p2 c2 post2 hf
        refine ⟨by rw [hcs]; simp, hn, ?_⟩
        intro x hx
        rcases List.mem_cons.mp hx with rfl | hx'
        · exact ha
        · exact hpre x hx'

theorem findChild_make (n : String) : ∀ (pre : List FNode) (c : FNode) (post : List FNode),
    (∀ x ∈ pre, x.name ≠ n) → c.name = n →
    findChild n (pre ++ c :: post) = some (pre, c, post) := by
  intro pre
  induction pre with
  | nil =>
    intro c post _ hc
    simp [findChild, hc]
  | cons a rest ih =>
    intro c post hpre hc
    have ha : a.name ≠ n := hpre a (List.mem_cons_self _ _)
    rw [List.cons_append, findChild, if_neg ha,
      ih c post (fun x hx => hpre x (List.mem_cons_of_mem _ hx)) hc]

theorem findChild_none (n : String) : ∀ cs : List FNode,
    findChild n cs = none ↔ ∀ x ∈ cs, x.name ≠ n := by
  intro cs
  induction cs with
  | nil => simp [findChild]
  | cons a rest ih =>
    constructor
    · intro h x hx
      by_cases ha : a.name = n
      · rw [findChild, if_pos ha] at h
        simp at h
      · rw [findChild, if_neg ha] at h
        rcases List.mem_cons.mp hx with rfl | hx'
        · exact ha
        · refine (ih.mp ?_) x hx'
          cases hf : findChild n rest with
          | none => rfl
          | some t =>
            obtain ⟨p, c, q⟩ := t
            rw [hf] at h
            simp at h
    · intro hall
      have ha : a.name ≠ n := hall a (List.mem_cons_self _ _)
      have hr : findChild n rest = none :=
        ih.mpr (fun x hx => hall x (List.mem_cons_of_mem _ hx))
      rw [findChild, if_neg ha, hr]

theorem findChild_append (n : String) (cs ds : List FNode) :
    findChild n (cs ++ ds) =
      match findChild n cs with
      | some (pre, c, post) => some (pre, c, post ++ ds)
      | none => (findChild n ds).map (fun t => (cs ++ t.1, t.2.1, t.2.2)) := by
  induction cs with
  | nil =>
    simp only [List.nil_append, findChild]
    cases findChild n ds with
    | none => rfl
    | some t => obtain ⟨p, c, q⟩ := t; rfl
  | cons a rest ih =>
    by_cases ha : a.name = n
    · simp [findChild_cons, ha]
    · rw [List.cons_append, findChild_cons, if_neg ha, ih, findChild_cons, if_neg ha]
      cases findChild n rest with
      | some t => obtain ⟨p, c, q⟩ := t; rfl
      | none =>
        cases findChild n ds with
        | none => rfl
        | some t => obtain ⟨p, c, q⟩ := t; rfl

/-! ## Path lemmas for the tree builder (shared) -/

theorem newChain_name (hid : String) (size : Int) (f : StackFrame) (fs : List StackFrame) :
    (newChain hid size f fs).name = f.function := by
  cases fs <;> rfl

theorem hasPathB_newChain (hid : String) (size : Int) :
    ∀ (fs : List StackFrame) (f : StackFrame),
      hasPathB (fs.map (·.function)) (newChain hid size f fs).children = true := by
  intro fs
  induction fs with
  | nil => intro f; rfl
  | cons g fs' ih =>
    intro f
    have hname : (newChain hid size g fs').name = g.function := newChain_name ..
    simp only [newChain, FNode.children, List.map_cons, hasPathB, findChild, hname, if_pos rfl]
    exact ih g

theorem hasPathB_insertFrames_self (hid : String) (size : Int) :
    ∀ (fs : List StackFrame) (cs : List FNode),
      hasPathB (fs.map (·.function)) (insertFrames hid size fs cs) = true := by
  intro fs
  induction fs with
  | nil => intro cs; rfl
  | cons f fs' ih =>
    intro cs
    cases hff : findChild f.function cs with
    | none =>
      have hchain := findChild_make f.function cs (newChain hid size f fs') []
        ((findChild_none f.function cs).mp hff) (newChain_name ..)
      simp only [insertFrames, hff, List.map_cons, hasPathB]
      rw [hchain]
      exact hasPathB_newChain hid size fs' f
    | some t =>
      obtain ⟨pre, cM, post⟩ := t
      obtain ⟨nm, v, hh, d, x, y, w, cc⟩ := cM
      obtain ⟨hcs, hn, hpre⟩ := findChild_eq f.function cs pre _ post hff
      simp only [FNode.name] at hn
      have hupd := findChild_make f.function pre
        (.mk nm (v + size) (insert hid hh) d x y w (insertFrames hid size fs' cc)) post
        hpre (by simp [FNode.name, hn])
      simp only [insertFrames, hff, List.map_cons, hasPathB]
      rw [hupd]
      exact ih _

theorem hasPathB_insertFrames_preserved (hid : String) (size : Int) :
    ∀ (fs : List StackFrame) (p : List String) (cs : List FNode),
      hasPathB p cs = true → hasPathB p (insertFrames hid size fs cs) = true := by
  intro fs
  induction fs with
  | nil => intro p cs h; exact h
  | cons f fs' ih =>
    intro p cs h
    cases p with
    | nil => rfl
    | cons n ns =>
      simp only [hasPathB] at h
      cases hfc : findChild n cs with
      | none => rw [hfc] at h; simp at h
      | some tb =>
        obtain ⟨a, b, c2⟩ := tb
        rw [hfc] at h
        cases hff : findChild f.function cs with
        | none =>
          simp only [insertFrames, hff, hasPathB]
          rw [findChild_append n cs [newChain hid size f fs'], hfc]
          exact h
        | some t =>
          obtain ⟨pre, cM, post⟩ := t
          obtain ⟨nm, v, hh, d, x, y, w, cc⟩ := cM
          obtain ⟨hcs, hn, hpre⟩ := findChild_eq f.function cs pre _ post hff
          simp only [FNode.name] at hn
          simp only [insertFrames, hff, hasPathB]
          -- compare the two decompositions through `findChild_append` with `cs := pre`
          rw [hcs, findChild_append n pre] at hfc
          rw [findChild_append n pre]
          cases hfp : findChild n pre with
          | some tq =>
            obtain ⟨q1, q2, q3⟩ := tq
            rw [hfp] at hfc
            obtain ⟨rfl, rfl, rfl⟩ : q1 = a ∧ q2 = b ∧ q3 ++ (FNode.mk nm v hh d x y w cc) :: post = c2 := by
              simpa using hfc
            exact h
          | none =>
            rw [hfp] at hfc
            by_cases hnm : nm = n
            · -- the modified child is the one on the path
              subst hnm
              rw [show findChild nm ((FNode.mk nm v hh d x y w cc) :: post) =
                  some ([], .mk nm v hh d x y w cc, post) by
                simp [findChild, FNode.name]] at hfc
              simp only [Option.map_some] at hfc
              obtain ⟨rfl, rfl, rfl⟩ : pre ++ [] = a ∧ FNode.mk nm v hh d x y w cc = b ∧ post = c2 := by
                simpa using hfc
              rw [show findChild nm ((FNode.mk nm (v + size) (insert hid hh) d x y w
                    (insertFrames hid size fs' cc)) :: post) =
                  some ([], .mk nm (v + size) (insert hid hh) d x y w
                    (insertFrames hid size fs' cc), post) by
                simp [findChild, FNode.name]]
              simp only [Option.map_some, FNode.children]
              exact ih ns cc (by simpa [FNode.children] using h)
            · -- the modified child is off the path head
              rw [show findChild n ((FNode.mk nm v hh d x y w cc) :: post) =
                  (findChild n post).map (fun t => ((FNode.mk nm v hh d x y w cc) :: t.1, t.2.1, t.2.2)) by
                rw [findChild_cons, if_neg (show ¬ (FNode.mk nm v hh d x y w cc).name = n from hnm)]
                cases findChild n post with
                | none => rfl
                | some t => obtain ⟨p1, p2, p3⟩ := t; rfl] at hfc
              rw [show findChild n ((FNode.mk nm (v + size) (insert hid hh) d x y w
                    (insertFrames hid size fs' cc)) :: post) =
                  (findChild n post).map (fun t => ((FNode.mk nm (v + size) (insert hid hh) d x y w
                    (insertFrames hid size fs' cc)) :: t.1, t.2.1, t.2.2)) by
                rw [findChild_cons, if_neg (show ¬ (FNode.mk nm (v + size) (insert hid hh) d x y w
                    (insertFrames hid size fs' cc)).name = n from hnm)]
                cases findChild n post with
                | none => rfl
                | some t => obtain ⟨p1, p2, p3⟩ := t; rfl]
              cases hfq : findChild n post with
              | none => rw [hfq] at hfc; simp at hfc
              | some tq =>
                obtain ⟨q1, q2, q3⟩ := tq
                rw [hfq] at hfc
                simp only [Option.map_some] at hfc
                obtain ⟨rfl, rfl, rfl⟩ :
                    pre ++ (FNode.mk nm v hh d x y w cc) :: q1 = a ∧ q2 = b ∧ q3 = c2 := by
                  simpa using hfc
                simp only [Option.map_some]
                exact h

theorem hasPathB_foldl_preserved (reverse : Bool) (traces : List (String × StackTrace)) :
    ∀ (l : List (String × Int)) (cs : List FNode) (p : List String),
      hasPathB p cs = true → hasPathB p (l.foldl (insertStack reverse traces) cs) = true := by
  intro l
  induction l with
  | nil => intro cs p h; exact h
  | cons q rest ih =>
    intro cs p h
    rw [List.foldl_cons]
    refine ih _ p ?_
    unfold insertStack
    cases dictGet? q.1 traces with
    | none => exact h
    | some tr => exact hasPathB_insertFrames_preserved _ _ _ p cs h

theorem hasPathB_foldl_member (reverse : Bool) (traces : List (String × StackTrace)) :
    ∀ (l : List (String × Int)) (cs : List FNode) (h : String) (sz : Int) (tr : StackTrace),
      (h, sz) ∈ l → dictGet? h traces = some tr →
      hasPathB ((if reverse then tr.frames.reverse else tr.frames).map (·.function))
        (l.foldl (insertStack reverse traces) cs) = true := by
  intro l
  induction l with
  | nil => intro cs h sz tr hm; simp at hm
  | cons q rest ih =>
    intro cs h sz tr hm htr
    rcases List.mem_cons.mp hm with rfl | hm'
    · rw [List.foldl_cons]
      refine hasPathB_foldl_preserved reverse traces rest _ _ ?_
      simp only [insertStack, htr]
      exact hasPathB_insertFrames_self ..
    · rw [List.foldl_cons]
      exact ih _ h sz tr hm' htr

/-! ## C7 -/

/-- C7 counterexample: the repository has two merge-tree builders and they
disagree on zero-size stacks.  For a corpus with one stack of aggregated size
0, the flame-graph builder (`_build_node_tree`) still walks it — the frame
path `g1` exists under the root — while the call-tree builder
(`StackTreeWidget.update_data`, `if total_size > 0`) skips it: its root has
no children at all.  This falsifies "a stack whose aggregated allocation size
is zero is still walked by the merge-tree builder ... rather than the stack
being skipped" for the cited call-tree builder. -/
theorem callTreeBuilderSkipsZeroSizeStack :
    ((stackTreeRoot [("hz", ⟨"hz", [⟨"", "", "g1", none⟩]⟩)]
        [("hz", [⟨0, "hz", "", "", none⟩])]).childrenKeys = []) ∧
    ((match buildNodeTree false [("hz", ⟨"hz", [⟨"", "", "g1", none⟩]⟩)]
        [("hz", [⟨0, "hz", "", "", none⟩])] with
      | .ok r => hasPathB ["g1"] r.children
      | .error _ => false) = true) :=
  ⟨by decide, by decide⟩

/-- C7 amended: the **flame-graph** builder walks every stack whose hash id
has a trace — including stacks of aggregated size 0, whose calling-context
path still appears under the root (as zero-value nodes); the **call-tree**
builder of `StackTreeWidget.update_data`, by contrast, skips any stack whose
aggregated size is not positive (removing it from the input changes
nothing). -/
theorem zeroSizeStackWalkedByFlameBuilderOnly :
    (∀ (reverse : Bool) (traces : List (String × StackTrace))
       (allocations : List (String × List AllocationRecord)) (h : String)
       (as : List AllocationRecord) (tr : StackTrace),
       (h, as) ∈ allocations → dictGet? h traces = some tr →
       (as.map (·.size)).sum = 0 →
       (∀ p ∈ allocations, (dictGet? p.1 traces).isSome = true) →
       ∃ root, buildNodeTree reverse traces allocations = .ok root ∧
         hasPathB ((if reverse then tr.frames.reverse else tr.frames).map (·.function))
           root.children = true) ∧
    (∀ (traces1 traces2 : List (String × StackTrace)) (h : String) (tr : StackTrace)
       (allocations : List (String × List AllocationRecord)),
       (((dictGet? h allocations).getD []).map (·.size)).sum ≤ 0 →
       stackTreeRoot (traces1 ++ (h, tr) :: traces2) allocations =
         stackTreeRoot (traces1 ++ traces2) allocations) := by
  constructor
  · intro reverse traces allocations h as tr hmem htr hzero hall
    refine ⟨_, buildNodeTree_ok reverse traces allocations hall, ?_⟩
    have hsorted : (h, (as.map (·.size)).sum) ∈
        (allocations.map (fun p => (p.1, (p.2.map (·.size)).sum))).insertionSort
          (fun a b => b.2 ≤ a.2) := by
      rw [List.mem_insertionSort]
      exact List.mem_map.mpr ⟨(h, as), hmem, rfl⟩
    exact hasPathB_foldl_member reverse traces _ [] h _ tr hsorted htr
  · intro traces1 traces2 h tr allocations hle
    unfold stackTreeRoot
    rw [List.foldl_append, List.foldl_append, List.foldl_cons]
    congr 1
    simp only [if_neg (not_lt.mpr hle)]

/-- Witness for `zeroSizeStackWalkedByFlameBuilderOnly` on a concrete
zero-size corpus. -/
theorem zeroSizeStackWalkedByFlameBuilderOnly_witness :
    (∃ root, buildNodeTree false [("hz", ⟨"hz", [⟨"", "", "g1", none⟩, ⟨"", "", "g2", none⟩]⟩)]
        [("hz", [⟨0, "hz", "", "", none⟩])] = .ok root ∧
      hasPathB ((if false then ([⟨"", "", "g1", none⟩, ⟨"", "", "g2", none⟩] :
          List StackFrame).reverse else [⟨"", "", "g1", none⟩, ⟨"", "", "g2", none⟩]).map
        (·.function)) root.children = true) ∧
    stackTreeRoot ([] ++ ("hz", (⟨"hz", [⟨"", "", "g1", none⟩]⟩ : StackTrace)) :: [])
        [("hz", [⟨0, "hz", "", "", none⟩])] =
      stackTreeRoot ([] ++ []) [("hz", [⟨0, "hz", "", "", none⟩])] :=
  ⟨zeroSizeStackWalkedByFlameBuilderOnly.1 false
      [("hz", ⟨"hz", [⟨"", "", "g1", none⟩, ⟨"", "", "g2", none⟩]⟩)]
      [("hz", [⟨0, "hz", "", "", none⟩])] "hz" [⟨0, "hz", "", "", none⟩]
      ⟨"hz", [⟨"", "", "g1", none⟩, ⟨"", "", "g2", none⟩]⟩
      (by decide) (by decide) (by decide) (by decide),
   zeroSizeStackWalkedByFlameBuilderOnly.2 [] [] "hz" ⟨"hz", [⟨"", "", "g1", none⟩]⟩
      [("hz", [⟨0, "hz", "", "", none⟩])] (by decide)⟩

/-! ## C4 -/

/-- C4: two stacks with identical frame sequences `[fr1, fr2, fr3]` and
aggregated sizes 50 and 70 merge into a single linear chain of three nodes
under the root, one per frame in frame order, each node having value 120 and
a contributing stack-identifier set of the two hash ids (size 2). -/
theorem mergeIdenticalStacksChain (fr1 fr2 fr3 : StackFrame) (h1 h2 : String) (hne : h1 ≠ h2)
    (as1 as2 : List AllocationRecord)
    (hs1 : (as1.map (·.size)).sum = 50) (hs2 : (as2.map (·.size)).sum = 70) :
    buildNodeTree false [(h1, ⟨h1, [fr1, fr2, fr3]⟩), (h2, ⟨h2, [fr1, fr2, fr3]⟩)]
        [(h1, as1), (h2, as2)] =
      .ok (.mk "root" 120 {h1, h2} 0 0 0 0
        [.mk fr1.function 120 {h1, h2} 0 0 0 0
          [.mk fr2.function 120 {h1, h2} 0 0 0 0
            [.mk fr3.function 120 {h1, h2} 0 0 0 0 []]]]) ∧
    ({h1, h2} : Finset String).card = 2 := by
  have hne' : ¬ (h1 = h2) := hne
  constructor
  · unfold buildNodeTree
    simp only [List.map_cons, List.map_nil, hs1, hs2]
    rw [show List.insertionSort (fun (a b : String × Int) => b.2 ≤ a.2) [(h1, 50), (h2, 70)] =
        [(h2, 70), (h1, 50)] by
      simp [List.insertionSort, List.orderedInsert]]
    simp only [buildLoop, dictGet?, if_neg hne', if_pos rfl]
    simp [insertFrames, findChild, findChild_cons, newChain, FNode.name, FNode.children]
  · rw [Finset.card_insert_of_not_mem (by simp [hne]), Finset.card_singleton]

/-! ## Depth-attribute lemmas (shared) -/

theorem allDepthZeroList_append (l1 l2 : List FNode) :
    allDepthZeroList (l1 ++ l2) = (allDepthZeroList l1 && allDepthZeroList l2) := by
  induction l1 with
  | nil => simp [allDepthZeroList]
  | cons c cs ih => simp [allDepthZeroList, ih, Bool.and_assoc]

theorem allDepthZero_newChain (hid : String) (size : Int) :
    ∀ (fs : List StackFrame) (f : StackFrame), allDepthZero (newChain hid size f fs) = true := by
  intro fs
  induction fs with
  | nil => intro f; rfl
  | cons g fs' ih =>
    intro f
    simp [newChain, allDepthZero, allDepthZeroList, ih g]

theorem allDepthZeroList_insertFrames (hid : String) (size : Int) :
    ∀ (fs : List StackFrame) (cs : List FNode),
      allDepthZeroList cs = true → allDepthZeroList (insertFrames hid size fs cs) = true := by
  intro fs
  induction fs with
  | nil => intro cs h; exact h
  | cons f fs' ih =>
    intro cs h
    cases hff : findChild f.function cs with
    | none =>
      simp only [insertFrames, hff]
      rw [allDepthZeroList_append]
      simp [h, allDepthZeroList, allDepthZero_newChain]
    | some t =>
      obtain ⟨pre, cM, post⟩ := t
      obtain ⟨nm, v, hh, d, x, y, w, cc⟩ := cM
      obtain ⟨hcs, -, -⟩ := findChild_eq f.function cs pre _ post hff
      subst hcs
      rw [allDepthZeroList_append] at h
      simp only [allDepthZeroList, allDepthZero, Bool.and_eq_true] at h
      obtain ⟨hpre, ⟨hd, hcc⟩, hpost⟩ := h
      simp only [insertFrames, hff]
      rw [allDepthZeroList_append]
      simp only [allDepthZeroList, allDepthZero, Bool.and_eq_true]
      exact ⟨hpre, ⟨hd, ih cc hcc⟩, hpost⟩

theorem buildLoop_allDepthZero (reverse : Bool) (traces : List (String × StackTrace)) :
    ∀ (l : List (String × Int)) (n : String) (v : Int) (hids : Finset String)
      (x y w : Rat) (cs : List FNode) (root : FNode),
      allDepthZeroList cs = true →
      buildLoop reverse traces l (.mk n v hids 0 x y w cs) = .ok root →
      allDepthZero root = true := by
  intro l
  induction l with
  | nil =>
    intro n v hids x y w cs root hcs hok
    obtain rfl : FNode.mk n v hids 0 x y w cs = root := by simpa [buildLoop] using hok
    simp [allDepthZero, hcs]
  | cons p rest ih =>
    intro n v hids x y w cs root hcs hok
    obtain ⟨h, size⟩ := p
    cases htr : dictGet? h traces with
    | none => simp [buildLoop, htr] at hok
    | some tr =>
      simp only [buildLoop, htr] at hok
      exact ih _ _ _ _ _ _ _ root (allDepthZeroList_insertFrames _ _ _ _ hcs) hok

theorem getMaxDepth_of_allDepthZero :
    ∀ t : FNode, allDepthZero t = true → getMaxDepth t = 0 := by
  refine getMaxDepth.induct
    (fun t => allDepthZero t = true → getMaxDepth t = 0)
    (fun acc cs => acc = 0 → allDepthZeroList cs = true → maxDepthList acc cs = 0)
    ?_ ?_ ?_ ?_
  · intro n v h d x y w hz
    simp only [allDepthZero, allDepthZeroList, Bool.and_eq_true, beq_iff_eq] at hz
    simpa [getMaxDepth] using hz.1
  · intro n v h d x y w c cs ihc ihl hz
    simp only [allDepthZero, allDepthZeroList, Bool.and_eq_true, beq_iff_eq] at hz
    obtain ⟨-, hc, hcs⟩ := hz
    rw [getMaxDepth]
    exact ihl (ihc hc) hcs
  · intro acc hacc _
    simpa [maxDepthList] using hacc
  · intro acc c cs ihc ihl hacc hz
    simp only [allDepthZeroList, Bool.and_eq_true] at hz
    rw [maxDepthList]
    refine ihl ?_ hz.2
    rw [ihc hz.1, hacc]
    simp

/-! ## Layout row-assignment lemma (shared) -/

theorem layout_rows (reverse : Bool) (mD : Int) (rectH vSpace tW : Rat) :
    ∀ (node : FNode) (x : Rat) (depth : Int) (parentW : Rat) (parentV : Option Int),
      ∀ out, layoutNode reverse mD rectH vSpace tW node x depth parentW parentV = .ok out →
        rowsFrom reverse mD out depth = true := by
  refine layoutNode.induct reverse mD rectH vSpace tW
    (fun node x depth parentW parentV => ∀ out,
      layoutNode reverse mD rectH vSpace tW node x depth parentW parentV = .ok out →
        rowsFrom reverse mD out depth = true)
    (fun l x depth parentW parentV => ∀ outs,
      layoutChildren reverse mD rectH vSpace tW l x depth parentW parentV = .ok outs →
        rowsFromList reverse mD outs depth = true)
    ?_ ?_ ?_ ?_ ?_ ?_ ?_ ?_ ?_
  · intro x depth parentW n v hids d1 x1 y w cs e herr _ out hok
    rw [layoutNode, herr] at hok
    simp at hok
  · intro x depth parentW n v hids d1 x1 y w cs cs' hokc ih out hok
    rw [layoutNode, hokc] at hok
    obtain rfl : FNode.mk n v hids (if reverse = true then depth else mD - depth) x
        (((if reverse = true then depth else mD - depth : Int) : Rat) * (rectH + vSpace))
        tW cs' = out := by
      simpa using hok
    simp only [rowsFrom, beq_self_eq_true, Bool.true_and]
    exact ih cs' hokc
  · intro x depth parentW n v hids d1 x1 y w cs out hok
    rw [layoutNode] at hok
    simp at hok
  · intro x depth parentW n v hids d1 x1 y w cs pv hpv
    intro w2 e herr _ out hok
    rw [show w2 = parentW * ((v : Rat) / (pv : Rat)) from rfl] at herr
    rw [layoutNode, if_neg hpv] at hok
    simp only [] at hok
    rw [herr] at hok
    simp at hok
  · intro x depth parentW n v hids d1 x1 y w cs pv hpv
    intro w2 cs' hokc ih out hok
    rw [show w2 = parentW * ((v : Rat) / (pv : Rat)) from rfl] at hokc
    rw [layoutNode, if_neg hpv] at hok
    simp only [] at hok
    rw [hokc] at hok
    obtain rfl : FNode.mk n v hids (if reverse = true then depth else mD - depth) x
        (((if reverse = true then depth else mD - depth : Int) : Rat) * (rectH + vSpace))
        (parentW * ((v : Rat) / (pv : Rat))) cs' = out := by
      simpa using hok
    simp only [rowsFrom, beq_self_eq_true, Bool.true_and]
    refine ih cs' ?_
    rw [show w2 = parentW * ((v : Rat) / (pv : Rat)) from rfl]
    exact hokc
  · intro curX depth parentW parentV outs hok
    obtain rfl : ([] : List FNode) = outs := by simpa [layoutChildren] using hok
    rfl
  · intro curX depth parentW parentV c cs e herr _ outs hok
    rw [layoutChildren, herr] at hok
    simp at hok
  · intro curX depth parentW parentV c cs c' hokn e herr _ _ outs hok
    rw [layoutChildren, hokn] at hok
    simp only [] at hok
    rw [herr] at hok
    simp at hok
  · intro curX depth parentW parentV c cs c' hokn cs' hokc ih1 ih2 outs hok
    rw [layoutChildren, hokn] at hok
    simp only [] at hok
    rw [hokc] at hok
    obtain rfl : c' :: cs' = outs := by simpa using hok
    simp only [rowsFromList, Bool.and_eq_true]
    exact ⟨ih1 c' hokn, ih2 cs' hokc⟩


theorem calculateLayout_zeroParent_error (reverse : Bool) (rectH vSpace vw : Rat)
    (nm : String) (hids : Finset String) (d0 : Int) (x0 y0 w0 : Rat)
    (cs : List FNode) (hcs : cs ≠ []) :
    calculateLayout reverse rectH vSpace vw (.mk nm 0 hids d0 x0 y0 w0 cs) =
      .error "ZeroDivisionError" := by
  have hlen : (sortChildrenDesc cs).length = cs.length :=
    (List.perm_insertionSort _ cs).length_eq
  cases hs : sortChildrenDesc cs with
  | nil =>
    rw [hs] at hlen
    cases cs with
    | nil => exact absurd rfl hcs
    | cons a l => simp at hlen
  | cons c rest =>
    obtain ⟨cn, cv, chh, cd, cx, cy, cw, ccs⟩ := c
    unfold calculateLayout
    rw [layoutNode, hs, layoutChildren, layoutNode]
    simp

/-! ## C5 -/

/-- C5 counterexample: on a freshly built tree every stored `depth` attribute
is still 0 (from `__init__`), so `_get_max_depth` — which reads the stored
attribute at the leaves — returns 0 and **not** the structural max leaf
distance from the root (2 for this two-frame stack).  The layout's first step
therefore does not compute the maximum over all leaves of the structural
distance. -/
theorem maxDepthNotStructuralDistance :
    (match buildNodeTree false [("hz", ⟨"hz", [⟨"", "", "g1", none⟩, ⟨"", "", "g2", none⟩]⟩)]
        [("hz", [⟨3, "hz", "", "", none⟩])] with
      | .ok r => decide (getMaxDepth r = 0) && decide (specMaxLeafDepth r = 2)
      | .error _ => false) = true := by decide

/-- C5 amended: `_get_max_depth` returns the maximum over the leaves of the
**stored** `depth` attribute, which is 0 on every freshly built tree (every
node of a `_build_node_tree` result carries `depth = 0`), not the structural
distance; the per-node row assignment is then exactly `structural_depth` when
`reverse_stack` and `max_depth − structural_depth` otherwise, with this
(possibly 0) `max_depth`. -/
theorem maxDepthFromStoredDepthAttr :
    (∀ (reverse : Bool) (traces : List (String × StackTrace))
       (allocations : List (String × List AllocationRecord)) (root : FNode),
       buildNodeTree reverse traces allocations = .ok root → allDepthZero root = true) ∧
    (∀ t : FNode, allDepthZero t = true → getMaxDepth t = 0) ∧
    (∀ (reverse : Bool) (rectH vSpace vw : Rat) (root out : FNode),
       calculateLayout reverse rectH vSpace vw root = .ok out →
       rowsFrom reverse (getMaxDepth root) out 0 = true) := by
  refine ⟨?_, getMaxDepth_of_allDepthZero, ?_⟩
  · intro reverse traces allocations root hok
    unfold buildNodeTree at hok
    exact buildLoop_allDepthZero reverse traces _ "root" 0 ∅ 0 0 0 [] root rfl hok
  · intro reverse rectH vSpace vw root out hok
    unfold calculateLayout at hok
    exact layout_rows reverse (getMaxDepth root) rectH vSpace _ root 0 0 _ none out hok

/-- Witness for `maxDepthFromStoredDepthAttr` on concrete trees. -/
theorem maxDepthFromStoredDepthAttr_witness :
    allDepthZero (.mk "root" 3 {"hz"} 0 0 0 0
      [.mk "g1" 3 {"hz"} 0 0 0 0 [.mk "g2" 3 {"hz"} 0 0 0 0 []]]) = true ∧
    getMaxDepth (.mk "root" 3 {"hz"} 0 0 0 0
      [.mk "g1" 3 {"hz"} 0 0 0 0 [.mk "g2" 3 {"hz"} 0 0 0 0 []]]) = 0 ∧
    rowsFrom false (getMaxDepth (.mk "r" 5 ∅ 0 0 0 0 []))
      (.mk "r" 5 ∅ 0 0 0 980 []) 0 = true := by
  refine ⟨?_, ?_, ?_⟩
  · exact maxDepthFromStoredDepthAttr.1 false
      [("hz", ⟨"hz", [⟨"", "", "g1", none⟩, ⟨"", "", "g2", none⟩]⟩)]
      [("hz", [⟨3, "hz", "", "", none⟩])] _ rfl
  · exact maxDepthFromStoredDepthAttr.2.1 _ (by decide)
  · refine maxDepthFromStoredDepthAttr.2.2 false 24 4 1000 _ _ ?_
    show calculateLayout false 24 4 1000 (.mk "r" 5 ∅ 0 0 0 0 []) =
      .ok (.mk "r" 5 ∅ 0 0 0 980 [])
    unfold calculateLayout
    rw [layoutNode]
    norm_num [getMaxDepth, sortChildrenDesc, List.insertionSort, layoutChildren]

theorem exceptBind_ok {α β : Type} (a : α) (k : α → Except String β) :
    (Except.ok a >>= k : Except String β) = k a := rfl

/-! ## C3 -/

/-- C3 counterexample: laying out the tree built from a single zero-size
stack raises `ZeroDivisionError` — the width-ratio division by the parent's
value is not guarded. -/
theorem layoutZeroWeightParentRaises :
    (do
      let root ← buildNodeTree false
        [("hz", ⟨"hz", [⟨"", "", "g1", none⟩, ⟨"", "", "g2", none⟩]⟩)]
        [("hz", [⟨0, "hz", "", "", none⟩])]
      calculateLayout false 24 4 1000 root) = Except.error "ZeroDivisionError" := by
  have hb : buildNodeTree false
      [("hz", ⟨"hz", [⟨"", "", "g1", none⟩, ⟨"", "", "g2", none⟩]⟩)]
      [("hz", [⟨0, "hz", "", "", none⟩])] =
      .ok (.mk "root" 0 (insert "hz" ∅) 0 0 0 0
        [.mk "g1" 0 {"hz"} 0 0 0 0 [.mk "g2" 0 {"hz"} 0 0 0 0 []]]) := rfl
  rw [hb, exceptBind_ok]
  exact calculateLayout_zeroParent_error false 24 4 1000 "root" (insert "hz" ∅) 0 0 0 0
    [.mk "g1" 0 {"hz"} 0 0 0 0 [.mk "g2" 0 {"hz"} 0 0 0 0 []]] (by simp)

/-- C3 amended: the only guard around the width computation is
`if node.parent:` — the root itself never divides — but any child of a node
whose `value` is 0 performs `node.value / node.parent.value` with a zero
divisor and the layout raises `ZeroDivisionError` instead of treating the
ratio as 0. -/
theorem layoutRaisesOnZeroValueParent (reverse : Bool) (rectH vSpace vw : Rat)
    (nm : String) (hids : Finset String) (d0 : Int) (x0 y0 w0 : Rat)
    (cs : List FNode) (hcs : cs ≠ []) :
    calculateLayout reverse rectH vSpace vw (.mk nm 0 hids d0 x0 y0 w0 cs) =
      .error "ZeroDivisionError" :=
  calculateLayout_zeroParent_error reverse rectH vSpace vw nm hids d0 x0 y0 w0 cs hcs

/-- Witness for `layoutRaisesOnZeroValueParent` on a concrete zero-value
root with one child. -/
theorem layoutRaisesOnZeroValueParent_witness :
    calculateLayout false 24 4 1000
        (.mk "root" 0 ∅ 0 0 0 0 [.mk "g1" 0 {"hz"} 0 0 0 0 []]) =
      .error "ZeroDivisionError" :=
  layoutRaisesOnZeroValueParent false 24 4 1000 "root" ∅ 0 0 0 0
    [.mk "g1" 0 {"hz"} 0 0 0 0 []] (by simp)

/-- Witness for `mergeIdenticalStacksChain` at concrete frames, hash ids and
single-record allocation lists. -/
theorem mergeIdenticalStacksChain_witness :
    buildNodeTree false
        [("a", ⟨"a", [⟨"", "", "f1", none⟩, ⟨"", "", "f2", none⟩, ⟨"", "", "f3", none⟩]⟩),
         ("b", ⟨"b", [⟨"", "", "f1", none⟩, ⟨"", "", "f2", none⟩, ⟨"", "", "f3", none⟩]⟩)]
        [("a", [⟨50, "a", "", "", none⟩]), ("b", [⟨70, "b", "", "", none⟩])] =
      .ok (.mk "root" 120 {"a", "b"} 0 0 0 0
        [.mk "f1" 120 {"a", "b"} 0 0 0 0
          [.mk "f2" 120 {"a", "b"} 0 0 0 0
            [.mk "f3" 120 {"a", "b"} 0 0 0 0 []]]]) ∧
    ({"a", "b"} : Finset String).card = 2 :=
  mergeIdenticalStacksChain ⟨"", "", "f1", none⟩ ⟨"", "", "f2", none⟩ ⟨"", "", "f3", none⟩
    "a" "b" (by decide) [⟨50, "a", "", "", none⟩] [⟨70, "b", "", "", none⟩] rfl rfl

/-! ## Stack-parser step lemmas (shared) -/

theorem frame_step (tr : List (String × StackTrace)) (h : Option String)
    (cf : List StackFrame) (fl : String)
    (h1 : "hash:".data.isPrefixOf (pyStrip fl).data = false)
    (h2 : (pyStrip fl).data.isEmpty = false) :
    stackStep (tr, h, cf) fl = (tr, h, cf ++ [StackFrame.parse (pyStrip fl)]) := by
  unfold stackStep
  rw [if_neg (by simp [h1]), if_neg (by simp [h2])]

theorem frame_lines_fold :
    ∀ (fls : List String) (tr : List (String × StackTrace)) (h : Option String)
      (cf : List StackFrame),
      (∀ fl ∈ fls, "hash:".data.isPrefixOf (pyStrip fl).data = false ∧
        (pyStrip fl).data.isEmpty = false) →
      fls.foldl stackStep (tr, h, cf) =
        (tr, h, cf ++ fls.map (fun l => StackFrame.parse (pyStrip l))) := by
  intro fls
  induction fls with
  | nil => intro tr h cf _; simp
  | cons fl fls' ih =>
    intro tr h cf hall
    obtain ⟨hf1, hf2⟩ := hall fl (List.mem_cons_self _ _)
    rw [List.foldl_cons, frame_step tr h cf fl hf1 hf2,
      ih tr h _ (fun x hx => hall x (List.mem_cons_of_mem _ hx))]
    simp

theorem marker_step_shape (st : StackState) (m : String)
    (hm : "hash:".data.isPrefixOf (pyStrip m).data = true) :
    ∃ tr' cf', stackStep st m =
      (tr', some (pyStrip (String.mk (pySplitColonSecond (pyStrip m).data))), cf') := by
  unfold stackStep
  rw [if_pos (by simp [hm])]
  exact ⟨_, _, rfl⟩

theorem marker_step_flush (tr : List (String × StackTrace)) (h : String)
    (cf : List StackFrame) (m : String) (hh : h ≠ "") (hcf : cf ≠ [])
    (hm : "hash:".data.isPrefixOf (pyStrip m).data = true) :
    stackStep (tr, some h, cf) m =
      (dictInsert h ⟨h, cf⟩ tr,
       some (pyStrip (String.mk (pySplitColonSecond (pyStrip m).data))), []) := by
  unfold stackStep
  rw [if_pos (by simp [hm])]
  have hc : (h != "" && !cf.isEmpty) = true := by
    simp [hh, List.isEmpty_iff, hcf]
  simp only [hc, if_true]

theorem stackFinish_insert (tr : List (String × StackTrace)) (h : String)
    (cf : List StackFrame) (hh : h ≠ "") (hcf : cf ≠ []) :
    stackFinish (tr, some h, cf) = dictInsert h ⟨h, cf⟩ tr := by
  unfold stackFinish
  have hc : (h != "" && !cf.isEmpty) = true := by
    simp [hh, List.isEmpty_iff, hcf]
  simp only [hc, if_true]

theorem stackStep_fst_cases (st : StackState) (line : String) :
    (stackStep st line).1 = st.1 ∨
    ∃ h', st.2.1 = some h' ∧ st.2.2 ≠ [] ∧
      (stackStep st line).1 = dictInsert h' ⟨h', st.2.2⟩ st.1 := by
  unfold stackStep
  by_cases hpre : ("hash:".data.isPrefixOf (pyStrip line).data) = true
  · rw [if_pos (by simp [hpre])]
    cases hch : st.2.1 with
    | none =>
      exact Or.inl rfl
    | some h' =>
      simp only [hch]
      by_cases hcond : (h' != "" && !st.2.2.isEmpty) = true
      · rw [if_pos hcond]
        refine Or.inr ⟨h', rfl, ?_, rfl⟩
        have hb := (Bool.and_eq_true _ _).mp hcond
        simpa [List.isEmpty_iff] using hb.2
      · rw [if_neg hcond]
        exact Or.inl rfl
  · rw [if_neg (by simp [hpre])]
    by_cases hemp : ((pyStrip line).data.isEmpty) = true
    · rw [if_pos hemp]
      exact Or.inl rfl
    · rw [if_neg hemp]
      exact Or.inl rfl

theorem foldl_stackStep_nonempty :
    ∀ (lines : List String) (st : StackState),
      (∀ h t, dictGet? h st.1 = some t → t.frames ≠ []) →
      ∀ h t, dictGet? h (lines.foldl stackStep st).1 = some t → t.frames ≠ [] := by
  intro lines
  induction lines with
  | nil => intro st hP; exact hP
  | cons line rest ih =>
    intro st hP
    rw [List.foldl_cons]
    refine ih _ ?_
    intro h t hget
    rcases stackStep_fst_cases st line with heq | ⟨h', _, hne, heq⟩
    · rw [heq] at hget
      exact hP h t hget
    · rw [heq, dictGet?_dictInsert] at hget
      by_cases hh : h' = h
      · rw [if_pos hh] at hget
        obtain rfl : (⟨h', st.2.2⟩ : StackTrace) = t := by simpa using hget
        simpa using hne
      · rw [if_neg hh] at hget
        exact hP h t hget

theorem stackFinish_nonempty (st : StackState)
    (hP : ∀ h t, dictGet? h st.1 = some t → t.frames ≠ []) :
    ∀ h t, dictGet? h (stackFinish st) = some t → t.frames ≠ [] := by
  intro h t hget
  unfold stackFinish at hget
  cases hch : st.2.1 with
  | none =>
    rw [hch] at hget
    exact hP h t hget
  | some h' =>
    rw [hch] at hget
    simp only [] at hget
    by_cases hcond : (h' != "" && !st.2.2.isEmpty) = true
    · rw [if_pos hcond, dictGet?_dictInsert] at hget
      by_cases hh : h' = h
      · rw [if_pos hh] at hget
        obtain rfl : (⟨h', st.2.2⟩ : StackTrace) = t := by simpa using hget
        have hb := (Bool.and_eq_true _ _).mp hcond
        simpa [List.isEmpty_iff] using hb.2
      · rw [if_neg hh] at hget
        exact hP h t hget
    · rw [if_neg hcond] at hget
      exact hP h t hget

/-! ## C8 -/

/-- C8 counterexample: the stack parser does **not** store exactly the trace
blocks with at least one frame line.  In `["f", "hash: A", "hash: B"]` the
block of `A` contains zero frame lines (its marker is immediately followed by
another marker), yet `A` is stored — with the stray frame line `f` that
precedes any marker, because `current_frames` is reset only when a pending
trace is actually stored. -/
theorem stackParserStoresZeroFrameLineBlock :
    (parseStackFile ["f", "hash: A", "hash: B"]).map (·.1) = ["A"] ∧
    dictGet? "A" (parseStackFile ["f", "hash: A", "hash: B"]) =
      some ⟨"A", [StackFrame.parse "f"]⟩ :=
  ⟨by decide, by decide⟩

/-- C8 amended: (1) every stored trace has at least one frame — so a block
with zero frame lines *and no pending leaked frames* is discarded — but frame
lines pending before a marker may be attributed to the next stored block (see
the counterexample); (2) a trailing block at end of file (marker line `m`
carrying id `h`, followed by one or more frame lines and no further marker)
is still flushed: `h` is stored, with the parsed frame lines as a suffix of
its frames (a prefix may be leaked pending frames); (3) re-parsing the same
identifier overwrites: after `m, fl1, m, fl2` the stored trace for `h` is
exactly the second block's single frame (last-wins). -/
theorem stackParserBlockRules :
    (∀ (lines : List String) (h : String) (t : StackTrace),
       dictGet? h (parseStackFile lines) = some t → t.frames ≠ []) ∧
    (∀ (lines : List String) (m h : String) (fls : List String),
       h ≠ "" →
       "hash:".data.isPrefixOf (pyStrip m).data = true →
       pyStrip (String.mk (pySplitColonSecond (pyStrip m).data)) = h →
       fls ≠ [] →
       (∀ fl ∈ fls, "hash:".data.isPrefixOf (pyStrip fl).data = false ∧
         (pyStrip fl).data.isEmpty = false) →
       ∃ fs, dictGet? h (parseStackFile (lines ++ m :: fls)) = some ⟨h, fs⟩ ∧
         fs ≠ [] ∧ (fls.map (fun l => StackFrame.parse (pyStrip l))) <:+ fs) ∧
    (∀ (lines : List String) (m h fl1 fl2 : String),
       h ≠ "" →
       "hash:".data.isPrefixOf (pyStrip m).data = true →
       pyStrip (String.mk (pySplitColonSecond (pyStrip m).data)) = h →
       "hash:".data.isPrefixOf (pyStrip fl1).data = false →
       (pyStrip fl1).data.isEmpty = false →
       "hash:".data.isPrefixOf (pyStrip fl2).data = false →
       (pyStrip fl2).data.isEmpty = false →
       dictGet? h (parseStackFile (lines ++ [m, fl1, m, fl2])) =
         some ⟨h, [StackFrame.parse (pyStrip fl2)]⟩) := by
  refine ⟨?_, ?_, ?_⟩
  · intro lines h t hget
    exact stackFinish_nonempty _
      (foldl_stackStep_nonempty lines ([], none, []) (by intro h t hg; simp [dictGet?] at hg))
      h t hget
  · intro lines m h fls hh hm1 hm2 hfls hall
    unfold parseStackFile
    rw [List.foldl_append, List.foldl_cons]
    obtain ⟨tr', cf', hstep⟩ := marker_step_shape (lines.foldl stackStep ([], none, [])) m hm1
    rw [hstep, hm2, frame_lines_fold fls tr' _ cf' hall]
    have hmapne : fls.map (fun l => StackFrame.parse (pyStrip l)) ≠ [] := by
      simpa using hfls
    have happne : cf' ++ fls.map (fun l => StackFrame.parse (pyStrip l)) ≠ [] :=
      fun hE => hmapne (List.append_eq_nil.mp hE).2
    rw [stackFinish_insert tr' h _ hh happne]
    refine ⟨cf' ++ fls.map (fun l => StackFrame.parse (pyStrip l)), ?_, happne, ?_⟩
    · rw [dictGet?_dictInsert, if_pos rfl]
    · exact List.suffix_append _ _
  · intro lines m h fl1 fl2 hh hm1 hm2 hf1a hf1b hf2a hf2b
    unfold parseStackFile
    rw [List.foldl_append]
    rw [show [m, fl1, m, fl2].foldl stackStep (lines.foldl stackStep ([], none, [])) =
      stackStep (stackStep (stackStep (stackStep (lines.foldl stackStep ([], none, [])) m) fl1) m) fl2
      from rfl]
    obtain ⟨tr1, cf1, hstep1⟩ := marker_step_shape (lines.foldl stackStep ([], none, [])) m hm1
    rw [hstep1, hm2, frame_step tr1 (some h) cf1 fl1 hf1a hf1b,
      marker_step_flush tr1 h _ m hh (fun hE => by simp at hE) hm1, hm2,
      frame_step _ (some h) [] fl2 hf2a hf2b,
      stackFinish_insert _ h _ hh (by simp),
      dictGet?_dictInsert, if_pos rfl]
    simp

/-- Witness for `stackParserBlockRules` at a concrete file. -/
theorem stackParserBlockRules_witness :
    (StackTrace.mk "A" [StackFrame.parse (pyStrip "f")]).frames ≠ [] ∧
    (∃ fs, dictGet? "A" (parseStackFile ([] ++ "hash: A" :: ["f"])) = some ⟨"A", fs⟩ ∧
      fs ≠ [] ∧ (["f"].map (fun l => StackFrame.parse (pyStrip l))) <:+ fs) ∧
    dictGet? "A" (parseStackFile ([] ++ ["hash: A", "x", "hash: A", "y"])) =
      some ⟨"A", [StackFrame.parse (pyStrip "y")]⟩ :=
  ⟨stackParserBlockRules.1 ["hash: A", "f"] "A" ⟨"A", [StackFrame.parse (pyStrip "f")]⟩
      (by decide),
   stackParserBlockRules.2.1 [] "hash: A" "A" ["f"] (by decide) (by decide) (by decide)
      (by decide) (by decide),
   stackParserBlockRules.2.2 [] "hash: A" "A" "x" "y" (by decide) (by decide) (by decide)
      (by decide) (by decide) (by decide) (by decide)⟩

end Profiler
